import Mathlib

/-!
# Verification of the Wisp discovery/routing layer

A shallow embedding, in Lean 4, of the scoring, retrieval and gateway code of
the Wisp repository (`wisp/server/relevance.py`, `wisp/server/retriever.py`,
`wisp/server/enrich.py`, `wisp/server/mcp_client.py`, `wisp/server.py`),
together with theorems settling the specification claims about it.

Conventions of the embedding:
* SQLite / Python floats are modelled as `ℚ`; the transcendental functions
  (`math.log1p`, `math.log10`, `exp(-0.5·x)`) and the datetime parsing are
  abstracted as function parameters, constrained only by the elementary
  facts the proofs need (e.g. `log1p 0 = 0`, monotonicity).
* SQL `NULL` is `Option`; SQLite's `x / 0 = NULL` combined with
  `COALESCE(_, 0)` coincides with Lean's `x / 0 = 0` on `ℚ`.
* Database rows are records, tables are lists, and queries are list
  functions mirroring the SQL row by row.
-/

namespace Wisp

/-! ## Generic list helpers (sorting and lookup used by the SQL embedding) -/

/-- Insert `a` into `l` keeping `l` ordered by `key` descending
(first position whose key is ≤ `key a`). -/
def insertDesc {α : Type} (key : α → ℚ) (a : α) : List α → List α
  | [] => [a]
  | b :: bs => if key b ≤ key a then a :: b :: bs else b :: insertDesc key a bs

/-- Insertion sort, descending by `key`; models SQL `ORDER BY key DESC`. -/
def sortDescBy {α : Type} (key : α → ℚ) : List α → List α
  | [] => []
  | a :: as => insertDesc key a (sortDescBy key as)

/-- Insert `x` into an ascending list of rationals. -/
def insertAsc (x : ℚ) : List ℚ → List ℚ
  | [] => [x]
  | b :: bs => if x ≤ b then x :: b :: bs else b :: insertAsc x bs

/-- Insertion sort ascending; models Python's `sorted` on a list of floats. -/
def sortAsc : List ℚ → List ℚ
  | [] => []
  | a :: as => insertAsc a (sortAsc as)

/-- First value bound to `k` in an association list, `none` if absent;
models a join against a table keyed by `k`. -/
def alookup {κ α : Type} [DecidableEq κ] (k : κ) : List (κ × α) → Option α
  | [] => none
  | (k₂, a) :: rest => if k₂ = k then some a else alookup k rest

/-- Python's `str.lower()` (the data passing through it here is ASCII),
written over the character list so that it evaluates by kernel reduction. -/
def lowerStr (s : String) : String := String.mk (s.data.map Char.toLower)

/-- SQL `MAX(column)` over a list: `NULL` (`none`) on the empty list. -/
def sqlMax : List ℚ → Option ℚ
  | [] => none
  | x :: xs => match sqlMax xs with
    | none => some x
    | some m => some (max x m)

/-! ## Placeholder resolution (`wisp/server/mcp_client.py:607-631`)

`re.sub(r'\$\x7b(?:input:)?([^\x7d]+)\x7d', replace_match, data)` is embedded
as a left-to-right scanner over the character list: a match starts at `${`,
its body is the (nonempty) run of characters up to the first following `}`,
with an optional `input:` prefix stripped from the group when what remains is
nonempty. The scanner is written with explicit fuel (one unit per character
consumed at the front) so that it evaluates by kernel reduction; `length`
fuel always suffices. -/

/-- Split a character list at its first `'}'`, requiring a nonempty prefix:
this is what `([^\x7d]+)\x7d` can consume. -/
def splitAtBraceAux : List Char → Option (List Char × List Char)
  | [] => none
  | c :: cs =>
    if c = '}' then some ([], cs)
    else match splitAtBraceAux cs with
      | some (r, a) => some (c :: r, a)
      | none => none

/-- The regex body match: `some (raw, after)` when a first `'}'` exists and at
least one character precedes it. -/
def splitAtBrace (l : List Char) : Option (List Char × List Char) :=
  match splitAtBraceAux l with
  | some (r, a) => if r = [] then none else some (r, a)
  | none => none

/-- Strip the optional greedy `input:` prefix from the matched body; it is
only stripped when a nonempty group remains (regex backtracking). -/
def stripInput (raw : List Char) : List Char :=
  if "input:".data.isPrefixOf raw ∧ 6 < raw.length then raw.drop 6 else raw

/-- The fuelled `re.sub` scanner. An unset variable keeps the whole match
(`match.group(0)`), and scanning resumes after the consumed text either way;
at a `$` not starting a complete placeholder the scan moves one character
forward. -/
def substF (env : String → Option String) : ℕ → List Char → List Char
  | _, [] => []
  | 0, l => l
  | fuel+1, c :: cs =>
    if c = '$' ∧ cs.head? = some '{' then
      match splitAtBrace cs.tail with
      | some (raw, after) =>
        match env (String.mk (stripInput raw)) with
        | some v => v.data ++ substF env fuel after
        | none => '$' :: '{' :: (raw ++ '}' :: substF env fuel after)
      | none => c :: substF env fuel cs
    else c :: substF env fuel cs

/-- `re.sub` of the placeholder pattern over a character list. -/
def substVars (env : String → Option String) (l : List Char) : List Char :=
  substF env l.length l

/-- The variable names referenced by `${...}` / `${input:...}` placeholders of
a character list, in scan order (independent of the environment). -/
def refsF : ℕ → List Char → List String
  | _, [] => []
  | 0, _ => []
  | fuel+1, c :: cs =>
    if c = '$' ∧ cs.head? = some '{' then
      match splitAtBrace cs.tail with
      | some (raw, after) => String.mk (stripInput raw) :: refsF fuel after
      | none => refsF fuel cs
    else refsF fuel cs

/-- Referenced variables of a character list. -/
def refsIn (l : List Char) : List String := refsF l.length l

/-- The string case of `resolve_env_vars` (`mcp_client.py:613-629`): an
`ENV:`-prefixed string is looked up whole (rest of the string as the name,
the literal kept when unset); otherwise the `re.sub` scan applies. -/
def resolveString (env : String → Option String) (s : String) : String :=
  if "ENV:".data.isPrefixOf s.data then
    (env (String.mk (s.data.drop 4))).getD s
  else
    String.mk (substVars env s.data)

/-- The env vars a single string resolution reads: the whole suffix of an
`ENV:` string, else the placeholder names. -/
def refsString (s : String) : List String :=
  if "ENV:".data.isPrefixOf s.data then [String.mk (s.data.drop 4)]
  else refsIn s.data

/-- A process environment built from a finite list of bindings
(first binding wins), standing in for `os.environ`. -/
def envOf (bindings : List (String × String)) (n : String) : Option String :=
  alookup n bindings

/-! ## JSON-ish values: `resolve_env_vars` recursion, HTTP payloads -/

/-- JSON values as handled by the Python code (dicts keep insertion order). -/
inductive JValue where
  | str : String → JValue
  | num : ℚ → JValue
  | bool : Bool → JValue
  | null : JValue
  | arr : List JValue → JValue
  | obj : List (String × JValue) → JValue

mutual

/-- `resolve_env_vars` (`mcp_client.py:607-631`): recurse through dicts and
lists, resolve strings, pass every other value through. -/
def resolveEnvVars (env : String → Option String) : JValue → JValue
  | .obj fs => .obj (resolveFields env fs)
  | .arr xs => .arr (resolveItems env xs)
  | .str s => .str (resolveString env s)
  | .num n => .num n
  | .bool b => .bool b
  | .null => .null

/-- List case of `resolve_env_vars`. -/
def resolveItems (env : String → Option String) : List JValue → List JValue
  | [] => []
  | v :: vs => resolveEnvVars env v :: resolveItems env vs

/-- Dict case of `resolve_env_vars` (values only, keys untouched). -/
def resolveFields (env : String → Option String) :
    List (String × JValue) → List (String × JValue)
  | [] => []
  | (k, v) :: fs => (k, resolveEnvVars env v) :: resolveFields env fs

end

/-! ## Hybrid retrieval (`wisp/server/relevance.py`, `RelevanceEngine.hybrid_search`)

The consolidated SQL query is embedded with its two candidate CTEs as inputs:
`embRows` is `tool_embeddings` already paired with the per-query cosine score
`s_score = 1 - vec_distance_cosine(embedding, query_vec)` (the embedding model
is external), and `ftsRows` is the set of FTS5 matches paired with
`k_raw = -bm25(tools_fts, 5.0, 3.0, 1.0)`. -/

/-- A row of the `tools_search` table (the fields the query reads). -/
structure SearchRow where
  toolId : ℕ
  toolName : String
  serverName : String
  descText : String
  deriving DecidableEq

/-- A result row of `hybrid_search` (the dict appended to `results`). -/
structure HitRow where
  toolId : ℕ
  toolName : String
  serverName : String
  description : String
  relevance : ℚ
  quality : ℚ
  finalScore : ℚ
  deriving DecidableEq

/-- The store's custom scalar `log1p` (`db.py`, `safe_log1p`): `0.0` on SQL
`NULL`, otherwise `ln(1 + max(0, x))`, with `log1p` the abstracted `math.log1p`
composed with `1 + ·`. -/
def sqlLog1p (log1p : ℚ → ℚ) : Option ℚ → ℚ
  | none => 0
  | some x => log1p (max 0 x)

/-- SQL `NULLIF(x, 0)`. -/
def nullif0 : Option ℚ → Option ℚ
  | none => none
  | some x => if x = 0 then none else some x

/-- The `vector_hits` CTE: top 200 of `tool_embeddings` by `s_score` descending. -/
def vectorHits (embRows : List (ℕ × ℚ)) : List (ℕ × ℚ) :=
  (sortDescBy (fun p => p.2) embRows).take 200

/-- The `fts_hits` CTE: top 200 FTS matches by `k_raw` descending. -/
def ftsHits (ftsRows : List (ℕ × ℚ)) : List (ℕ × ℚ) :=
  (sortDescBy (fun p => p.2) ftsRows).take 200

/-- The `relevance` select expression:
`0.7 * COALESCE(v.s_score, 0) + 0.3 * COALESCE(log1p(k.k_raw) / log1p(NULLIF(ks.k_max, 0)), 0)`.
`v`/`k` are the LEFT-JOINed hit rows for this tool (SQL `NULL` = `none`);
division of/by `NULL` or zero collapses to `0` exactly as
`COALESCE` + SQLite `NULL` propagation do. -/
def relevanceExpr (log1p : ℚ → ℚ) (v k kmax : Option ℚ) : ℚ :=
  7/10 * (v.getD 0) + 3/10 * (sqlLog1p log1p k / sqlLog1p log1p (nullif0 kmax))

/-- One row of the final SELECT, before the relevance floor:
the tool joined with its two hit sides and `market_rankings`. -/
def hybridRow (log1p : ℚ → ℚ) (vhits khits : List (ℕ × ℚ)) (kmax : Option ℚ)
    (market : List (String × ℚ)) (ts : SearchRow) : HitRow :=
  let rel := relevanceExpr log1p (alookup ts.toolId vhits) (alookup ts.toolId khits) kmax
  let quality := (alookup ts.serverName market).getD 0
  { toolId := ts.toolId
    toolName := ts.toolName
    serverName := ts.serverName
    description := ts.descText
    relevance := rel
    quality := quality
    finalScore := 8/10 * rel + 2/10 * quality }

/-- `RelevanceEngine.hybrid_search` (`relevance.py:167-246`): the consolidated
query over `tools_search`, restricted to tools present in either candidate set
(`WHERE v.tool_id IS NOT NULL OR k.tool_id IS NOT NULL`), filtered by
`relevance > 0.3`, ordered by `0.8*relevance + 0.2*quality` descending and
truncated to `limit`. -/
def hybridSearch (log1p : ℚ → ℚ) (searchRows : List SearchRow)
    (embRows ftsRows : List (ℕ × ℚ)) (market : List (String × ℚ))
    (limit : ℕ) : List HitRow :=
  let vhits := vectorHits embRows
  let khits := ftsHits ftsRows
  let kmax := sqlMax (khits.map (fun p => p.2))
  let rows := searchRows.filterMap (fun ts =>
    if (alookup ts.toolId vhits).isSome ∨ (alookup ts.toolId khits).isSome then
      let r := hybridRow log1p vhits khits kmax market ts
      if r.relevance > 3/10 then some r else none
    else none)
  (sortDescBy (fun r => r.finalScore) rows).take limit

/-! ## Paged retrieval (`wisp/server/retriever.py`, `Retriever.retrieve`) -/

/-- A row of the `v_tools_full` view (the fields hydration reads).
`inputSchema` is the already-parsed JSON column (`none` = `NULL` in the DB or
unparseable text, matching the `json.loads` fallback). -/
structure VToolsRow where
  toolId : ℕ
  toolName : String
  title : Option String
  description : Option String
  requiresAuth : Bool
  serverName : String
  serverDescription : Option String
  inputSchema : Option JValue

/-- A hydrated result of `Retriever.retrieve`. -/
structure RetrievedTool where
  toolId : ℕ
  name : String
  title : Option String
  description : Option String
  inputSchema : Option JValue
  requiresAuth : Bool
  serverName : String
  serverDescription : Option String
  relevance : ℚ
  quality : ℚ
  score : ℚ

/-- The response record of `Retriever.retrieve`. -/
structure RetrieveResponse where
  query : String
  page : ℕ
  limit : ℕ
  totalCandidates : ℕ
  results : List RetrievedTool

/-- Hydrate one `v_tools_full` row with the candidate carrying its scores. -/
def hydrate (c : HitRow) (row : VToolsRow) : RetrievedTool :=
  { toolId := row.toolId
    name := row.toolName
    title := row.title
    description := row.description
    inputSchema := row.inputSchema
    requiresAuth := row.requiresAuth
    serverName := row.serverName
    serverDescription := row.serverDescription
    relevance := c.relevance
    quality := c.quality
    score := c.finalScore }

/-- `Retriever.retrieve` (`retriever.py:26-116`): fetch up to 100 candidates
from `hybrid_search`, set `total_candidates = len(candidates)`, slice the page
`[(page-1)*limit, (page-1)*limit + limit)`, hydrate the page against
`v_tools_full` and re-sort by score descending. -/
def retrieve (log1p : ℚ → ℚ) (searchRows : List SearchRow)
    (embRows ftsRows : List (ℕ × ℚ)) (market : List (String × ℚ))
    (vtools : List VToolsRow) (query : String) (page limit : ℕ) :
    RetrieveResponse :=
  let candidates := hybridSearch log1p searchRows embRows ftsRows market 100
  let total := candidates.length
  let paged := (candidates.drop ((page - 1) * limit)).take limit
  if paged.isEmpty then
    { query := query, page := page, limit := limit
      totalCandidates := total, results := [] }
  else
    let finals := vtools.filterMap (fun row =>
      match (paged.filter (fun c => c.toolId = row.toolId)).head? with
      | some c => some (hydrate c row)
      | none => none)
    { query := query, page := page, limit := limit
      totalCandidates := total
      results := sortDescBy (fun r => r.score) finals }

/-! ## Enrichment failure classification (`wisp/server/enrich.py:172-250`) -/

/-- `needle in hay` on character lists (Python's substring operator). -/
def infixAux (n : List Char) : List Char → Bool
  | [] => n.isEmpty
  | c :: t => n.isPrefixOf (c :: t) || infixAux n t

/-- Python `needle in hay` for strings. -/
def containsSub (hay needle : String) : Bool :=
  infixAux needle.data hay.data

/-- `categorize_enrichment_failure` (`enrich.py:172-212`). Python truthiness is
preserved: a `status_code` of `0` and an empty `error_message` are falsy and
skip their blocks. -/
def categorizeEnrichmentFailure (statusCode : Option ℕ) (errorMessage : Option String) :
    String × String :=
  let code := statusCode.getD 0
  if code ≠ 0 ∧ code = 404 then ("permanent_failure", "not_found_404")
  else if code ≠ 0 ∧ (code = 401 ∨ code = 403) then ("permanent_failure", "auth_required")
  else if code ≠ 0 ∧ code = 429 then ("transient_failure", "rate_limited")
  else if code ≠ 0 ∧ code ≥ 500 then ("transient_failure", "server_error_" ++ toString code)
  else
    let msg := errorMessage.getD ""
    if msg ≠ "" then
      let lower := lowerStr msg
      if containsSub lower "not found" || containsSub lower "404" then
        ("permanent_failure", "not_found")
      else if containsSub lower "does not exist" then ("permanent_failure", "does_not_exist")
      else if containsSub lower "package not found" then ("permanent_failure", "package_not_found")
      else if containsSub lower "repository not found" then ("permanent_failure", "repo_not_found")
      else if containsSub lower "timeout" then ("transient_failure", "timeout")
      else if containsSub lower "rate limit" then ("transient_failure", "rate_limited")
      else if containsSub lower "connection" then ("transient_failure", "connection_error")
      else ("transient_failure", "unknown")
    else ("transient_failure", "unknown")

/-- The `enrichment_status` row written by one call of
`update_enrichment_status` (`enrich.py:215-250`): `(status, failure_reason)`.
On failure the original message is passed to the classifier without the HTTP
status code, exactly as in the source. -/
def updateEnrichmentStatusRow (success : Bool) (failureReason : Option String) :
    String × Option String :=
  if success then ("success", none)
  else
    let (status, reason) := categorizeEnrichmentFailure none failureReason
    (status, some reason)

/-! ## Backlink scoring (`wisp/server/enrich.py:1493-1919`)

`math.exp(-0.5·years)` is abstracted as `expHalf`, and the whole
datetime-parsing block (`fromisoformat` + day arithmetic at the run's `now`)
as `parseYears : String → Option ℚ`, `none` meaning the `except:` branch. -/

/-- `TIER_WEIGHTS` (`enrich.py:1495-1502`). -/
def TIER_WEIGHTS : List (String × ℚ) :=
  [("tier1_config", 1), ("tier2_dependency", 8/10), ("tier3_deployment", 6/10),
   ("tier4_curated", 3/10), ("tier5_mention", 1/10)]

/-- `CONFIG_TYPE_TO_TIER` (`enrich.py:1505-1510`). -/
def CONFIG_TYPE_TO_TIER : List (String × String) :=
  [("claude_desktop", "tier1_config"), ("cursor", "tier1_config"),
   ("windsurf", "tier1_config"), ("cline", "tier1_config")]

/-- `compute_recency_factor` (`enrich.py:1513-1537`): `0.5` for a missing or
empty (falsy) `pushed_at`, `0.5` when parsing raises, else `exp(-0.5·years)`. -/
def computeRecencyFactor (parseYears : String → Option ℚ) (expHalf : ℚ → ℚ)
    (pushedAt : Option String) : ℚ :=
  match pushedAt with
  | none => 1/2
  | some s => if s = "" then 1/2 else
    match parseYears s with
    | none => 1/2
    | some y => expHalf y

/-- `compute_quality_factor` (`enrich.py:1540-1553`). -/
def computeQualityFactor (isArchived isFork : Bool) : ℚ :=
  (if isArchived then 1/5 else 1) * (if isFork then 1/2 else 1)

/-- `compute_edge_score` (`enrich.py:1556-1572`). -/
def computeEdgeScore (log1p : ℚ → ℚ) (parseYears : String → Option ℚ)
    (expHalf : ℚ → ℚ) (tierWeight stars : ℚ) (pushedAt : Option String)
    (isArchived isFork : Bool) : ℚ :=
  let starFactor := 1 + log1p stars
  let recency := computeRecencyFactor parseYears expHalf pushedAt
  let quality := computeQualityFactor isArchived isFork
  tierWeight * starFactor * recency * quality

/-- Referencer-repo metadata as cached in `backlink_edges`
(`repo_stars` may be `NULL`). -/
structure RepoMeta where
  stars : Option ℚ
  pushedAt : Option String
  isArchived : Bool
  isFork : Bool

/-- A buffered `backlink_edges` row (`edges_to_store` entry,
`enrich.py:1802-1812`). -/
structure BacklinkEdge where
  serverName : String
  referencerRepo : String
  tier : String
  tierWeight : ℚ
  repoStars : ℚ
  repoPushedAt : Option String
  isArchived : Bool
  isFork : Bool
  edgeScore : ℚ
  deriving DecidableEq

/-- The metadata used for a sample repo (`enrich.py:1777-1797`): the cached
row if it has non-NULL stars, else the `(0, None, False, False)` fallback. -/
def metaFor (metaCache : List (String × RepoMeta)) (repo : String) :
    ℚ × Option String × Bool × Bool :=
  match alookup repo metaCache with
  | some m =>
    match m.stars with
    | some st => (st, m.pushedAt, m.isArchived, m.isFork)
    | none => (0, none, false, false)
  | none => (0, none, false, false)

/-- `own_repo and repo_fullname.lower() == own_repo` (`enrich.py:1768`). -/
def isSelfRef (ownRepo : Option String) (repo : String) : Bool :=
  match ownRepo with
  | some own => lowerStr repo == own
  | none => false

/-- Loop body over the `sample_repos` of one `config_references` row
(`enrich.py:1763-1812`): skip falsy and self repos, dedupe per
`(repo.lower(), tier)`, then buffer the edge. Returns the buffered edges and
the updated dedup set. -/
def processSamples (log1p : ℚ → ℚ) (parseYears : String → Option ℚ)
    (expHalf : ℚ → ℚ) (serverName : String) (ownRepo : Option String)
    (metaCache : List (String × RepoMeta)) (tier : String) (tierWeight : ℚ) :
    List String → List (String × String) → List BacklinkEdge × List (String × String)
  | [], seen => ([], seen)
  | repo :: rest, seen =>
    if repo = "" then
      processSamples log1p parseYears expHalf serverName ownRepo metaCache tier tierWeight rest seen
    else if isSelfRef ownRepo repo then
      processSamples log1p parseYears expHalf serverName ownRepo metaCache tier tierWeight rest seen
    else if (lowerStr repo, tier) ∈ seen then
      processSamples log1p parseYears expHalf serverName ownRepo metaCache tier tierWeight rest seen
    else
      let seen₂ := (lowerStr repo, tier) :: seen
      let (stars, pushedAt, isArchived, isFork) := metaFor metaCache repo
      let score := computeEdgeScore log1p parseYears expHalf tierWeight stars pushedAt isArchived isFork
      let edge : BacklinkEdge :=
        { serverName := serverName, referencerRepo := repo, tier := tier
          tierWeight := tierWeight, repoStars := stars, repoPushedAt := pushedAt
          isArchived := isArchived, isFork := isFork, edgeScore := score }
      let (edges, seen₃) :=
        processSamples log1p parseYears expHalf serverName ownRepo metaCache tier tierWeight rest seen₂
      (edge :: edges, seen₃)

/-- Walk of all `config_references` rows of one server
(`enrich.py:1749-1812`): each row is `(config_type, sample_repos)`; the tier is
`CONFIG_TYPE_TO_TIER.get(config_type, "tier1_config")` and the weight
`TIER_WEIGHTS.get(tier, 0.5)`. The dedup set is threaded through all rows. -/
def processConfigRefs (log1p : ℚ → ℚ) (parseYears : String → Option ℚ)
    (expHalf : ℚ → ℚ) (serverName : String) (ownRepo : Option String)
    (metaCache : List (String × RepoMeta)) :
    List (String × List String) → List (String × String) →
    List BacklinkEdge × List (String × String)
  | [], seen => ([], seen)
  | (configType, samples) :: rest, seen =>
    let tier := (alookup configType CONFIG_TYPE_TO_TIER).getD "tier1_config"
    let tierWeight := (alookup tier TIER_WEIGHTS).getD (1/2)
    let (edges₁, seen₁) :=
      processSamples log1p parseYears expHalf serverName ownRepo metaCache tier tierWeight samples seen
    let (edges₂, seen₂) :=
      processConfigRefs log1p parseYears expHalf serverName ownRepo metaCache rest seen₁
    (edges₁ ++ edges₂, seen₂)

/-- Stage-3 99th-percentile divisor (`enrich.py:1852-1859`): over
`L = {log1p(raw) : raw > 0}`, `q = max(sorted(L)[⌊0.99·|L|⌋], 1e-6)`,
and `1.0` when `L` is empty. -/
def q99LogRaw (log1p : ℚ → ℚ) (raws : List ℚ) : ℚ :=
  if ((raws.filter (fun r => 0 < r)).map log1p).isEmpty then 1
  else max ((sortAsc ((raws.filter (fun r => 0 < r)).map log1p)).getD
    (99 * ((raws.filter (fun r => 0 < r)).map log1p).length / 100) 0) (1/1000000)

/-- The stored `normalized_score` of one server (`enrich.py:1864-1867`):
`min(1, log1p(raw)/q)` for positive raw score, else `0`. -/
def normalizedScore (log1p : ℚ → ℚ) (q : ℚ) (raw : ℚ) : ℚ :=
  if 0 < raw then min 1 (log1p raw / q) else 0

/-! ## Marketplace ranking (`wisp/server/enrich.py:1921-2062`) -/

/-- `TRUSTED_ORGS` (`enrich.py:1923-1927`). -/
def TRUSTED_ORGS : List String :=
  ["modelcontextprotocol", "anthropic", "google", "openai", "meta-llama",
   "microsoft", "facebook", "docker", "hashicorp", "aws", "cloudflare",
   "vercel", "supabase", "mongodb", "pinecone", "elastic"]

/-- The joined signal row fetched per server by `compute_market_rankings`
(`enrich.py:1943-1962`); the `COALESCE(_, 0)` of the SQL is already applied to
the numeric columns, `last_push` and `repo_owner` stay nullable. -/
structure MarketRow where
  name : String
  usageRaw : ℚ
  stars : ℚ
  forks : ℚ
  lastPush : Option String
  downloads : ℚ
  authCount : ℕ
  repoOwner : Option String

/-- A stored `market_rankings` row. -/
structure RankRow where
  name : String
  totalScore : ℚ
  usageScore : ℚ
  reputationScore : ℚ
  activityScore : ℚ
  reachScore : ℚ
  isZeroAuth : Bool
  isVerified : Bool

/-- `get_q99` (`enrich.py:2009-2012`): `1.0` on an empty cohort, else
`max(sorted(vals)[⌊0.99·len⌋], 1e-6)`. -/
def getQ99 (vals : List ℚ) : ℚ :=
  if vals.isEmpty then 1
  else max ((sortAsc vals).getD (99 * vals.length / 100) 0) (1/1000000)

/-- The activity pillar (`enrich.py:1982-1992`): `exp(-0.5·years_ago)` from a
parseable `last_push`, `0.5` when the column is `NULL`/empty or parsing
raises. -/
def activityPillar (parseYears : String → Option ℚ) (expHalf : ℚ → ℚ)
    (lastPush : Option String) : ℚ :=
  match lastPush with
  | none => 1/2
  | some s => if s = "" then 1/2 else
    match parseYears s with
    | none => 1/2
    | some y => expHalf y

/-- `max(0, min(1, x))` (`enrich.py:2035`). -/
def clamp01 (x : ℚ) : ℚ := max 0 (min 1 x)

/-- The per-server normalisation and scoring step of
`compute_market_rankings` (`enrich.py:2019-2051`), given the three cohort
divisors. -/
def rankRowOf (log1p log10 : ℚ → ℚ) (parseYears : String → Option ℚ)
    (expHalf : ℚ → ℚ) (q99u q99r q99c : ℚ) (r : MarketRow) : RankRow :=
  let uNorm := min 1 (log1p r.usageRaw / q99u)
  let rNorm := min 1 ((log10 (1 + r.stars) + log10 (1 + r.forks)) / q99r)
  let aNorm := activityPillar parseYears expHalf r.lastPush
  let cNorm := min 1 (log10 (1 + r.downloads) / q99c)
  let isZeroAuth := r.authCount = 0
  let isVerified := lowerStr (r.repoOwner.getD "") ∈ TRUSTED_ORGS
  let composite := 45/100 * uNorm + 30/100 * rNorm + 15/100 * aNorm + 10/100 * cNorm
  let composite := composite + (if isZeroAuth then 5/100 else 0)
  let composite := composite + (if isVerified then 10/100 else 0)
  { name := r.name
    totalScore := clamp01 composite
    usageScore := uNorm
    reputationScore := rNorm
    activityScore := aNorm
    reachScore := cNorm
    isZeroAuth := isZeroAuth
    isVerified := isVerified }

/-- `compute_market_rankings` (`enrich.py:1929-2062`): gather the three raw
cohorts, take their 99th percentiles, then score every server. -/
def computeMarketRankings (log1p log10 : ℚ → ℚ) (parseYears : String → Option ℚ)
    (expHalf : ℚ → ℚ) (rows : List MarketRow) : List RankRow :=
  let uVals := rows.map (fun r => log1p r.usageRaw)
  let rVals := rows.map (fun r => log10 (1 + r.stars) + log10 (1 + r.forks))
  let cVals := rows.map (fun r => log10 (1 + r.downloads))
  let q99u := getQ99 uVals
  let q99r := getQ99 rVals
  let q99c := getQ99 cVals
  rows.map (rankRowOf log1p log10 parseYears expHalf q99u q99r q99c)

/-! ## Tools listing (`wisp/server.py:120-129`, `retriever.py:118-165`) -/

/-- The JSON value for a nullable text column. -/
def optStr : Option String → JValue
  | some s => .str s
  | none => .null

/-- The dict built per row by `Retriever.get_tools_for_server`
(`retriever.py:143-163`), as a JSON object in insertion order. -/
def toolJson (r : VToolsRow) : JValue :=
  .obj [("tool_id", .num r.toolId),
        ("name", .str r.toolName),
        ("title", optStr r.title),
        ("description", optStr r.description),
        ("input_schema", r.inputSchema.getD .null),
        ("requires_auth", .bool r.requiresAuth),
        ("server", .obj [("name", .str r.serverName),
                         ("description", optStr r.serverDescription)])]

/-- `Retriever.get_tools_for_server` (`retriever.py:118-165`): all
`v_tools_full` rows of the server, each rendered as the result dict. -/
def getToolsForServer (vtools : List VToolsRow) (serverName : String) : List JValue :=
  (vtools.filter (fun r => r.serverName == serverName)).map toolJson

/-- The `GET /servers/{server_name}/tools` handler (`server.py:120-129`):
`{"server": server_name, "tools": get_tools_for_server(server_name)}`. -/
def listServerTools (vtools : List VToolsRow) (serverName : String) : JValue :=
  .obj [("server", .str serverName), ("tools", .arr (getToolsForServer vtools serverName))]

/-- Field access on a JSON object (`none` on anything else). -/
def getField (k : String) : JValue → Option JValue
  | .obj fs => alookup k fs
  | _ => none

/-! ## Invocation gateway (`wisp/server.py:136-269`) -/

/-- A `server_remotes` row; `headersJson` is the parsed `headers_json`
column (`none` = SQL `NULL` / empty text, both falsy in Python). -/
structure RemoteRow where
  serverName : String
  transportType : String
  url : String
  headersJson : Option JValue

/-- A `server_packages` row. -/
structure PackageRow where
  serverName : String
  transportType : String
  registryType : String
  identifier : String
  runtimeHint : Option String

/-- A `server_local_sources` row (`args_json` and `env_json` parsed). -/
structure LocalRow where
  serverName : String
  command : String
  argsJson : Option (List String)
  workingDir : Option String
  envJson : Option JValue

/-- The three connection tables the gateway queries. -/
structure GatewayDb where
  remotes : List RemoteRow
  packages : List PackageRow
  locals : List LocalRow

/-- Python truthiness of a parsed JSON value. -/
def jsonTruthy : JValue → Bool
  | .obj fs => !fs.isEmpty
  | .arr xs => !xs.isEmpty
  | .str s => !(s == "")
  | .num n => !(n == 0)
  | .bool b => b
  | .null => false

/-- The resolved connection info (the dict returned by
`get_server_connection_info`). -/
inductive ConnInfo where
  | remote (url : String) (headers : Option JValue)
  | stdio (registry identifier : String) (runtimeHint : Option String)
  | localSrc (command : String) (args : List String) (cwd : Option String) (envMap : JValue)

/-- `get_server_connection_info` (`server.py:136-189`): first `server_remotes`
match, else first `server_packages` row with `transport_type = 'stdio'`, else
first `server_local_sources` row, else `None`. Remote headers are resolved
through `resolve_env_vars` when truthy. -/
def getServerConnectionInfo (env : String → Option String) (db : GatewayDb)
    (serverName : String) : Option ConnInfo :=
  match db.remotes.find? (fun r => r.serverName == serverName) with
  | some r =>
    let headers := match r.headersJson with
      | none => none
      | some h => some (if jsonTruthy h then resolveEnvVars env h else h)
    some (.remote r.url headers)
  | none =>
    match db.packages.find? (fun p => p.serverName == serverName && p.transportType == "stdio") with
    | some p => some (.stdio p.registryType p.identifier p.runtimeHint)
    | none =>
      match db.locals.find? (fun l => l.serverName == serverName) with
      | some l => some (.localSrc l.command (l.argsJson.getD []) l.workingDir (l.envJson.getD (.obj [])))
      | none => none

/-- The request body of `POST /call`. -/
structure CallRequest where
  serverName : String
  toolName : String
  arguments : JValue

/-- Outcome of the bounded MCP session once connection info resolved: the
`initialize` or `call_tool` step can exceed its `asyncio.wait_for` timeout
(`asyncio.TimeoutError`), any other upstream exception carries its message. -/
inductive SessionOutcome where
  | success (result : JValue)
  | initTimeout
  | callTimeout
  | failure (message : String)

/-- An HTTP response of the `/call` endpoint: the passed-through tool result,
or an `HTTPException(status_code, detail)`. -/
inductive CallResponse where
  | ok (result : JValue)
  | httpError (status : ℕ) (detail : String)

/-- HTTP status of a `/call` response (FastAPI returns 200 on a plain value). -/
def statusOf : CallResponse → ℕ
  | .ok _ => 200
  | .httpError s _ => s

/-- The `POST /call` handler (`server.py:208-269`): 404 before the session
when no connection info resolves; inside the `try`,
`except asyncio.TimeoutError` maps either timeout to 504 and
`except Exception as e` maps everything else to 500 with `str(e)`. -/
def callToolEndpoint (env : String → Option String) (db : GatewayDb)
    (req : CallRequest) (outcome : SessionOutcome) : CallResponse :=
  match getServerConnectionInfo env db req.serverName with
  | none =>
    .httpError 404 ("Connection info for server '" ++ req.serverName ++ "' not found.")
  | some _ =>
    match outcome with
    | .success v => .ok v
    | .initTimeout => .httpError 504 "Tool execution timed out."
    | .callTimeout => .httpError 504 "Tool execution timed out."
    | .failure m => .httpError 500 m

/-! ## Concrete tables and records used by the witnesses and counterexamples -/

/-- A one-remote connection table for exercising the gateway mapping. -/
def gatewayDb₁ : GatewayDb :=
  { remotes := [{ serverName := "srv", transportType := "streamable-http",
                  url := "https://x/mcp", headersJson := none }]
    packages := []
    locals := [] }

/-- The `/call` body used in the gateway witnesses. -/
def callReq₁ : CallRequest :=
  { serverName := "srv", toolName := "t", arguments := JValue.null }

/-- A one-tool `v_tools_full` table for the tools-listing counterexample. -/
def vtoolsRow₁ : VToolsRow :=
  { toolId := 1, toolName := "t1", title := none, description := none
    requiresAuth := false, serverName := "s", serverDescription := none
    inputSchema := none }

/-- The claim's closed formula for an edge score, over the fields stored on
the edge itself: `tier_weight · (1 + log1p(stars)) · recency · quality` with
recency `exp(-0.5·years)` and `0.5` for an unknown or unparseable
`pushed_at`, and quality `0.2`/`0.5` multipliers for archived/fork. -/
def edgeScoreFormula (log1p : ℚ → ℚ) (parseYears : String → Option ℚ)
    (expHalf : ℚ → ℚ) (e : BacklinkEdge) : ℚ :=
  e.tierWeight * (1 + log1p e.repoStars) *
    (match e.repoPushedAt with
     | none => 1/2
     | some s => if s = "" then 1/2 else
       match parseYears s with
       | none => 1/2
       | some y => expHalf y) *
    ((if e.isArchived then 1/5 else 1) * (if e.isFork then 1/2 else 1))

/-- A one-entry referencer metadata cache (repo `other/repo`, one star,
unknown push date). -/
def metaCache₁ : List (String × RepoMeta) :=
  [("other/repo", { stars := some 1, pushedAt := none, isArchived := false, isFork := false })]

/-- The edge the config-reference walk buffers in the witness scenario. -/
def backlinkEdge₁ : BacklinkEdge :=
  { serverName := "x", referencerRepo := "other/repo", tier := "tier1_config"
    tierWeight := 1, repoStars := 1, repoPushedAt := none
    isArchived := false, isFork := false, edgeScore := 1 }

/-- The single-row corpus used by the C3 witness: a verified, zero-auth
server with no signals other than an unknown push date. -/
def marketRow₁ : MarketRow :=
  { name := "srv", usageRaw := 0, stars := 0, forks := 0, lastPush := none
    downloads := 0, authCount := 0, repoOwner := some "anthropic" }

/-- The one-row search table shared by the retrieval witnesses. -/
def searchRow₁ : SearchRow := { toolId := 1, toolName := "t", serverName := "s", descText := "d" }

/-- Cleanliness of an environment: the substituted values can neither start a
new placeholder nor turn the result into an `ENV:` string. -/
def EnvClean (env : String → Option String) : Prop :=
  ∀ n v, env n = some v → v.data ≠ [] ∧
    ∀ c ∈ v.data, c ≠ '$' ∧ c ≠ '{' ∧ c ≠ '}' ∧ c ≠ ':'

/-! ## Theorems -/

theorem mem_insertDesc {α : Type} (key : α → ℚ) (a x : α) (l : List α) :
    x ∈ insertDesc key a l ↔ x = a ∨ x ∈ l := by
  induction l with
  | nil => simp [insertDesc]
  | cons b bs ih =>
    by_cases h : key b ≤ key a
    · simp [insertDesc, h]
    · simp only [insertDesc, if_neg h, List.mem_cons, ih]
      tauto

theorem mem_sortDescBy {α : Type} (key : α → ℚ) (x : α) (l : List α) :
    x ∈ sortDescBy key l ↔ x ∈ l := by
  induction l with
  | nil => simp [sortDescBy]
  | cons a as ih => simp [sortDescBy, mem_insertDesc, ih]

theorem pairwise_insertDesc {α : Type} (key : α → ℚ) (a : α) (l : List α)
    (h : l.Pairwise (fun x y => key y ≤ key x)) :
    (insertDesc key a l).Pairwise (fun x y => key y ≤ key x) := by
  induction l with
  | nil => simp [insertDesc]
  | cons b bs ih =>
    rcases List.pairwise_cons.mp h with ⟨hb, hbs⟩
    by_cases hle : key b ≤ key a
    · rw [insertDesc, if_pos hle]
      refine List.pairwise_cons.mpr ⟨?_, h⟩
      intro y hy
      rcases List.mem_cons.mp hy with rfl | hy₂
      · exact hle
      · exact le_trans (hb y hy₂) hle
    · rw [insertDesc, if_neg hle]
      refine List.pairwise_cons.mpr ⟨?_, ih hbs⟩
      intro y hy
      rcases (mem_insertDesc key a y bs).mp hy with rfl | hy₂
      · exact le_of_lt (lt_of_not_le hle)
      · exact hb y hy₂

theorem pairwise_sortDescBy {α : Type} (key : α → ℚ) (l : List α) :
    (sortDescBy key l).Pairwise (fun x y => key y ≤ key x) := by
  induction l with
  | nil => simp [sortDescBy]
  | cons a as ih => exact pairwise_insertDesc key a _ ih

/-! ## Claim C7: enrichment status classification -/

/-- C7: the enrichment workers pass the literal reason `"package_not_found"`
(e.g. `enrich.py:647` for a missing npm package) to
`update_enrichment_status`, whose classifier looks for the space-separated
substring `"package not found"`; the underscored reason matches no taxonomy
branch and is stored as a transient failure with reason `"unknown"`,
contradicting the claim that `package_not_found` yields
`status = permanent_failure`. -/
theorem c7_package_not_found_written_transient :
    updateEnrichmentStatusRow false (some "package_not_found") =
      ("transient_failure", some "unknown") ∧
    (updateEnrichmentStatusRow false (some "package_not_found")).1 ≠
      "permanent_failure" := by
  constructor
  · rfl
  · decide

/-! ## Claim C8: `/call` status mapping -/

/-- C8: the `/call` endpoint returns 404 exactly when no connection info
(remote, stdio package, or local source) resolves; 504 exactly when
connection info resolved and `initialize` or `call_tool` hit the
`asyncio.wait_for` timeout; and any other upstream failure becomes 500 with
the original message as detail. -/
theorem c8_call_status_mapping (env : String → Option String) (db : GatewayDb)
    (req : CallRequest) (outcome : SessionOutcome) :
    (statusOf (callToolEndpoint env db req outcome) = 404 ↔
      getServerConnectionInfo env db req.serverName = none) ∧
    (statusOf (callToolEndpoint env db req outcome) = 504 ↔
      ((getServerConnectionInfo env db req.serverName).isSome ∧
        (outcome = SessionOutcome.initTimeout ∨ outcome = SessionOutcome.callTimeout))) ∧
    (∀ m, outcome = SessionOutcome.failure m →
      (getServerConnectionInfo env db req.serverName).isSome →
      callToolEndpoint env db req outcome = CallResponse.httpError 500 m) := by
  cases h : getServerConnectionInfo env db req.serverName <;>
    cases outcome <;>
    simp [callToolEndpoint, statusOf, h]

theorem c8_call_status_mapping_witness :
    callToolEndpoint (envOf []) gatewayDb₁ callReq₁ (SessionOutcome.failure "boom") =
      CallResponse.httpError 500 "boom" :=
  (c8_call_status_mapping (envOf []) gatewayDb₁ callReq₁
      (SessionOutcome.failure "boom")).2.2 "boom" rfl (by rfl)

/-! ## Claim C10: `GET /servers/<name>/tools` -/

/-- C10 counterexample: the endpoint's `tools` field is not the list of tool
names as strings — for a server with the single tool `t1` it is a list of one
JSON object, not `["t1"]`. -/
theorem c10_tools_not_strings_counterexample :
    getField "tools" (listServerTools [vtoolsRow₁] "s") ≠
      some (JValue.arr [JValue.str "t1"]) := by
  intro h
  simp [listServerTools, getToolsForServer, toolJson, getField, alookup, vtoolsRow₁] at h

/-- C10 amended: `GET /servers/<name>/tools` returns
`{server: name, tools: [...]}` where `tools` is the list of full tool objects
(one per `v_tools_full` row of the server, in table order), each carrying the
tool's name as the string under its `name` key. -/
theorem c10_tools_listing_amended (vtools : List VToolsRow) (serverName : String) :
    listServerTools vtools serverName =
      JValue.obj [("server", JValue.str serverName),
                  ("tools", JValue.arr (getToolsForServer vtools serverName))] ∧
    (getToolsForServer vtools serverName).map (getField "name") =
      (vtools.filter (fun r => r.serverName == serverName)).map
        (fun r => some (JValue.str r.toolName)) := by
  refine ⟨rfl, ?_⟩
  simp only [getToolsForServer, List.map_map]
  rfl

/-! ## Claim C5: backlink edge scores -/

theorem processSamples_edgeScore (log1p : ℚ → ℚ) (parseYears : String → Option ℚ)
    (expHalf : ℚ → ℚ) (serverName : String) (ownRepo : Option String)
    (metaCache : List (String × RepoMeta)) (tier : String) (tierWeight : ℚ) :
    ∀ (samples : List String) (seen : List (String × String)),
      ∀ e ∈ (processSamples log1p parseYears expHalf serverName ownRepo metaCache
              tier tierWeight samples seen).1,
        e.edgeScore = edgeScoreFormula log1p parseYears expHalf e ∧
        e.tierWeight = tierWeight ∧ e.tier = tier := by
  intro samples
  induction samples with
  | nil => intro seen e he; simp [processSamples] at he
  | cons repo rest ih =>
    intro seen e he
    by_cases h1 : repo = ""
    · rw [processSamples, if_pos h1] at he
      exact ih seen e he
    · by_cases h2 : isSelfRef ownRepo repo = true
      · rw [processSamples, if_neg h1, if_pos h2] at he
        exact ih seen e he
      · by_cases h3 : (lowerStr repo, tier) ∈ seen
        · rw [processSamples, if_neg h1, if_neg h2, if_pos h3] at he
          exact ih seen e he
        · rw [processSamples, if_neg h1, if_neg h2, if_neg h3] at he
          simp only [List.mem_cons] at he
          rcases he with rfl | he₂
          · refine ⟨?_, rfl, rfl⟩
            simp [edgeScoreFormula, computeEdgeScore, computeRecencyFactor,
              computeQualityFactor]
          · exact ih ((lowerStr repo, tier) :: seen) e he₂

/-- C5: every backlink edge buffered by the config-reference walk stores
`edge_score = tier_weight · (1 + log1p(stars)) · exp(-0.5·years_since_push) ·
(0.2 if archived else 1) · (0.5 if fork else 1)`, with recency `0.5` when
`pushed_at` is missing, empty, or unparseable — all evaluated on the exact
metadata fields stored on that edge. -/
theorem c5_edge_score_formula (log1p : ℚ → ℚ) (parseYears : String → Option ℚ)
    (expHalf : ℚ → ℚ) (serverName : String) (ownRepo : Option String)
    (metaCache : List (String × RepoMeta))
    (configRefs : List (String × List String)) (seen : List (String × String)) :
    ∀ e ∈ (processConfigRefs log1p parseYears expHalf serverName ownRepo metaCache
            configRefs seen).1,
      e.edgeScore = edgeScoreFormula log1p parseYears expHalf e ∧
      e.tierWeight = (alookup e.tier TIER_WEIGHTS).getD (1/2) := by
  induction configRefs generalizing seen with
  | nil => intro e he; simp [processConfigRefs] at he
  | cons cref rest ih =>
    intro e he
    obtain ⟨configType, samples⟩ := cref
    rw [processConfigRefs] at he
    simp only [List.mem_append] at he
    rcases he with he₁ | he₂
    · obtain ⟨hscore, hw, ht⟩ :=
        processSamples_edgeScore log1p parseYears expHalf serverName ownRepo metaCache
          ((alookup configType CONFIG_TYPE_TO_TIER).getD "tier1_config")
          ((alookup ((alookup configType CONFIG_TYPE_TO_TIER).getD "tier1_config")
            TIER_WEIGHTS).getD (1/2)) samples seen e he₁
      exact ⟨hscore, by rw [hw, ht]⟩
    · exact ih _ e he₂

theorem c5_edge_score_formula_witness :
    backlinkEdge₁ ∈ (processConfigRefs (fun x => x) (fun _ => none) (fun _ => 1/2) "x"
        (some "owner/x") metaCache₁ [("claude_desktop", ["Owner/X", "other/repo", ""])] []).1 ∧
    backlinkEdge₁.edgeScore =
      edgeScoreFormula (fun x => x) (fun _ => none) (fun _ => 1/2) backlinkEdge₁ := by
  have hmem : backlinkEdge₁ ∈ (processConfigRefs (fun x => x) (fun _ => none)
      (fun _ => 1/2) "x" (some "owner/x") metaCache₁
      [("claude_desktop", ["Owner/X", "other/repo", ""])] []).1 := by
    have hl1 : lowerStr "Owner/X" = "owner/x" := by decide
    have hl2 : lowerStr "other/repo" = "other/repo" := by decide
    have hlist : (processConfigRefs (fun x => x) (fun _ => none) (fun _ => 1/2) "x"
        (some "owner/x") metaCache₁
        [("claude_desktop", ["Owner/X", "other/repo", ""])] []).1 = [backlinkEdge₁] := by
      norm_num [processConfigRefs, processSamples, metaFor, computeEdgeScore,
        computeRecencyFactor, computeQualityFactor, metaCache₁, backlinkEdge₁,
        alookup, hl1, hl2, isSelfRef, CONFIG_TYPE_TO_TIER, TIER_WEIGHTS]
      decide
    rw [hlist]
    exact List.mem_singleton.mpr rfl
  exact ⟨hmem,
    (c5_edge_score_formula (fun x => x) (fun _ => none) (fun _ => 1/2) "x"
      (some "owner/x") metaCache₁ [("claude_desktop", ["Owner/X", "other/repo", ""])] []
      backlinkEdge₁ hmem).1⟩

/-! ## Claim C6: backlink normalisation -/

theorem q99LogRaw_pos (log1p : ℚ → ℚ) (raws : List ℚ) :
    0 < q99LogRaw log1p raws := by
  unfold q99LogRaw
  split
  · norm_num
  · exact lt_of_lt_of_le (by norm_num) (le_max_right _ _)

/-- C6: within one scoring run, every stored `normalized_score` lies in
`[0, 1]`, is `0` exactly for non-positive raw scores, equals
`min(1, log1p(raw)/q)` for positive raw scores with `q` the clamped
99th-percentile divisor, and the map from raw to normalised score is
monotone. The hypotheses are the facts true of `math.log1p`:
`log1p 0 = 0`, monotonicity, and positivity on positive arguments. -/
theorem c6_normalisation_bounded_monotone (log1p : ℚ → ℚ)
    (hmono : Monotone log1p)
    (hpos : ∀ x : ℚ, 0 < x → 0 < log1p x) (raws : List ℚ) :
    (∀ r ∈ raws,
      0 ≤ normalizedScore log1p (q99LogRaw log1p raws) r ∧
      normalizedScore log1p (q99LogRaw log1p raws) r ≤ 1 ∧
      (normalizedScore log1p (q99LogRaw log1p raws) r = 0 ↔ r ≤ 0) ∧
      (0 < r → normalizedScore log1p (q99LogRaw log1p raws) r =
        min 1 (log1p r / q99LogRaw log1p raws))) ∧
    (∀ a b, a ∈ raws → b ∈ raws → b ≤ a →
      normalizedScore log1p (q99LogRaw log1p raws) b ≤
        normalizedScore log1p (q99LogRaw log1p raws) a) := by
  have hq : 0 < q99LogRaw log1p raws := q99LogRaw_pos log1p raws
  have hpos_norm : ∀ r : ℚ, 0 < r →
      0 < normalizedScore log1p (q99LogRaw log1p raws) r := by
    intro r hr
    rw [normalizedScore, if_pos hr]
    exact lt_min (by norm_num) (div_pos (hpos r hr) hq)
  have hnn : ∀ r : ℚ, 0 ≤ normalizedScore log1p (q99LogRaw log1p raws) r := by
    intro r
    by_cases hr : 0 < r
    · exact le_of_lt (hpos_norm r hr)
    · rw [normalizedScore, if_neg hr]
  have hle1 : ∀ r : ℚ, normalizedScore log1p (q99LogRaw log1p raws) r ≤ 1 := by
    intro r
    by_cases hr : 0 < r
    · rw [normalizedScore, if_pos hr]; exact min_le_left _ _
    · rw [normalizedScore, if_neg hr]; norm_num
  refine ⟨fun r _ => ⟨hnn r, hle1 r, ?_, ?_⟩, ?_⟩
  · constructor
    · intro hz
      by_contra hpos_r
      exact absurd hz (ne_of_gt (hpos_norm r (lt_of_not_le hpos_r)))
    · intro hr
      rw [normalizedScore, if_neg (not_lt.mpr hr)]
  · intro hr
    rw [normalizedScore, if_pos hr]
  · intro a b _ _ hba
    by_cases hb : 0 < b
    · have ha : 0 < a := lt_of_lt_of_le hb hba
      rw [normalizedScore, if_pos hb, normalizedScore, if_pos ha]
      exact min_le_min le_rfl ((div_le_div_iff_of_pos_right hq).mpr (hmono hba))
    · rw [normalizedScore, if_neg hb]
      exact hnn a

theorem c6_normalisation_bounded_monotone_witness :
    normalizedScore (fun x => x) (q99LogRaw (fun x => x) [2, 1, 0]) 2 = 1 ∧
    normalizedScore (fun x => x) (q99LogRaw (fun x => x) [2, 1, 0]) 0 ≤
      normalizedScore (fun x => x) (q99LogRaw (fun x => x) [2, 1, 0]) 2 :=
  ⟨by norm_num [normalizedScore, q99LogRaw, sortAsc, insertAsc],
   (c6_normalisation_bounded_monotone (fun x => x) (fun _ _ h => h)
      (fun _ hx => hx) [2, 1, 0]).2 2 0 (by decide) (by decide) (by decide)⟩

/-! ## Claims C3 and C4: marketplace composite -/

theorem computeMarketRankings_get (log1p log10 : ℚ → ℚ)
    (parseYears : String → Option ℚ) (expHalf : ℚ → ℚ) (rows : List MarketRow)
    (i : ℕ) (hi : i < rows.length)
    (ho : i < (computeMarketRankings log1p log10 parseYears expHalf rows).length) :
    (computeMarketRankings log1p log10 parseYears expHalf rows).get ⟨i, ho⟩ =
      rankRowOf log1p log10 parseYears expHalf
        (getQ99 (rows.map (fun r => log1p r.usageRaw)))
        (getQ99 (rows.map (fun r => log10 (1 + r.stars) + log10 (1 + r.forks))))
        (getQ99 (rows.map (fun r => log10 (1 + r.downloads))))
        (rows.get ⟨i, hi⟩) := by
  simp [computeMarketRankings, List.get_eq_getElem, List.getElem_map]

/-- C3: every stored `market_rankings` row satisfies
`total_score = clamp01(0.45·U + 0.30·R + 0.15·A + 0.10·C + 0.05·[zero-auth] +
0.10·[verified])` over its own stored pillar scores, with `is_zero_auth`
holding exactly when the server has no secret env vars and `is_verified`
exactly when the lowercased repo owner is in `TRUSTED_ORGS`. -/
theorem c3_market_composite (log1p log10 : ℚ → ℚ)
    (parseYears : String → Option ℚ) (expHalf : ℚ → ℚ) (rows : List MarketRow)
    (i : ℕ) (hi : i < rows.length)
    (ho : i < (computeMarketRankings log1p log10 parseYears expHalf rows).length) :
    ((computeMarketRankings log1p log10 parseYears expHalf rows).get ⟨i, ho⟩).totalScore =
      clamp01 (45/100 * ((computeMarketRankings log1p log10 parseYears expHalf rows).get ⟨i, ho⟩).usageScore +
        30/100 * ((computeMarketRankings log1p log10 parseYears expHalf rows).get ⟨i, ho⟩).reputationScore +
        15/100 * ((computeMarketRankings log1p log10 parseYears expHalf rows).get ⟨i, ho⟩).activityScore +
        10/100 * ((computeMarketRankings log1p log10 parseYears expHalf rows).get ⟨i, ho⟩).reachScore +
        (if ((computeMarketRankings log1p log10 parseYears expHalf rows).get ⟨i, ho⟩).isZeroAuth then 5/100 else 0) +
        (if ((computeMarketRankings log1p log10 parseYears expHalf rows).get ⟨i, ho⟩).isVerified then 10/100 else 0)) ∧
    (((computeMarketRankings log1p log10 parseYears expHalf rows).get ⟨i, ho⟩).isZeroAuth = true ↔
      (rows.get ⟨i, hi⟩).authCount = 0) ∧
    (((computeMarketRankings log1p log10 parseYears expHalf rows).get ⟨i, ho⟩).isVerified = true ↔
      lowerStr ((rows.get ⟨i, hi⟩).repoOwner.getD "") ∈ TRUSTED_ORGS) := by
  rw [computeMarketRankings_get log1p log10 parseYears expHalf rows i hi ho]
  refine ⟨?_, ?_, ?_⟩
  · simp only [rankRowOf, decide_eq_true_eq]
  · simp [rankRowOf]
  · simp [rankRowOf]

theorem c3_market_composite_witness :
    (0 < [marketRow₁].length) ∧
    (((computeMarketRankings (fun x => x) (fun _ => 0) (fun _ => none) (fun _ => 1/2)
        [marketRow₁]).get ⟨0, by decide⟩).isVerified = true ↔
      lowerStr ((([marketRow₁].get ⟨0, by decide⟩).repoOwner).getD "") ∈ TRUSTED_ORGS) :=
  ⟨by decide,
   (c3_market_composite (fun x => x) (fun _ => 0) (fun _ => none) (fun _ => 1/2)
      [marketRow₁] 0 (by decide) (by decide)).2.2⟩

/-- C4 counterexample: a server with zero backlink references and zero
downloads, no stars or forks, an unknown push date, no secret env vars and a
trusted repo owner (`anthropic`) receives
`total = 0.15·0.5 + 0.05 + 0.10 = 0.225 > 0.15`, refuting
`total_score ∈ [0, 0.15]`. -/
theorem c4_counterexample :
    marketRow₁.usageRaw = 0 ∧ marketRow₁.downloads = 0 ∧
    ((computeMarketRankings (fun x => x) (fun _ => 0) (fun _ => none) (fun _ => 1/2)
        [marketRow₁]).map (fun r => r.totalScore)) = [9/40] ∧
    ¬ ((9:ℚ)/40 ≤ 3/20) := by
  have hlow : lowerStr "anthropic" = "anthropic" := by decide
  refine ⟨rfl, rfl, ?_, by norm_num⟩
  norm_num [computeMarketRankings, rankRowOf, marketRow₁, getQ99, sortAsc, insertAsc,
    activityPillar, clamp01, TRUSTED_ORGS, hlow]

/-- C4 amended: for a server with zero backlink references and zero weekly
downloads the usage and reach pillars vanish, so the stored `total_score`
lies in `[0, 0.60]` — the reputation pillar can still contribute up to 0.30,
the activity pillar up to 0.15 (0.075 even with an unknown push date), and
the two bonuses up to 0.15. The hypotheses on the abstract functions are the
facts true of `math.log1p`, `math.log10` and `exp`: `log1p 0 = 0`,
`log10 1 = 0`, and `exp(-0.5·y) ≤ 1` for the non-negative ages the code
computes. -/
theorem c4_zero_signal_bounds (log1p log10 : ℚ → ℚ)
    (parseYears : String → Option ℚ) (expHalf : ℚ → ℚ)
    (h1 : log1p 0 = 0) (h10 : log10 1 = 0) (hexp : ∀ y, expHalf y ≤ 1)
    (rows : List MarketRow) (i : ℕ) (hi : i < rows.length)
    (ho : i < (computeMarketRankings log1p log10 parseYears expHalf rows).length)
    (hu : (rows.get ⟨i, hi⟩).usageRaw = 0)
    (hd : (rows.get ⟨i, hi⟩).downloads = 0) :
    0 ≤ ((computeMarketRankings log1p log10 parseYears expHalf rows).get ⟨i, ho⟩).totalScore ∧
    ((computeMarketRankings log1p log10 parseYears expHalf rows).get ⟨i, ho⟩).totalScore ≤ 3/5 := by
  rw [computeMarketRankings_get log1p log10 parseYears expHalf rows i hi ho]
  simp only [rankRowOf, hu, hd, h1]
  constructor
  · exact le_max_left 0 _
  · have hR : min 1 ((log10 (1 + (rows.get ⟨i, hi⟩).stars) +
        log10 (1 + (rows.get ⟨i, hi⟩).forks)) /
        getQ99 (rows.map (fun r => log10 (1 + r.stars) + log10 (1 + r.forks)))) ≤ 1 :=
      min_le_left _ _
    have hA : ∀ lp : Option String, activityPillar parseYears expHalf lp ≤ 1 := by
      intro lp
      match lp with
      | none => show (1:ℚ)/2 ≤ 1; norm_num
      | some s =>
        show (if s = "" then (1:ℚ)/2 else _) ≤ 1
        by_cases hs : s = ""
        · rw [if_pos hs]; norm_num
        · rw [if_neg hs]
          cases hp : parseYears s with
          | none => show (1:ℚ)/2 ≤ 1; norm_num
          | some y => show expHalf y ≤ 1; exact hexp y
    have hb1 : (if (rows.get ⟨i, hi⟩).authCount = 0 then (5:ℚ)/100 else 0) ≤ 5/100 := by
      split <;> norm_num
    have hb2 : (if lowerStr ((rows.get ⟨i, hi⟩).repoOwner.getD "") ∈ TRUSTED_ORGS
        then (10:ℚ)/100 else 0) ≤ 10/100 := by
      split <;> norm_num
    have hU : min 1 ((0:ℚ) / getQ99 (rows.map (fun r => log1p r.usageRaw))) = 0 := by
      norm_num
    have hC : min 1 (log10 (1 + 0) / getQ99 (rows.map (fun r => log10 (1 + r.downloads)))) = 0 := by
      norm_num [h10]
    rw [clamp01]
    refine max_le (by norm_num) (le_trans (min_le_right _ _) ?_)
    rw [hU, hC]
    linarith [hA (rows.get ⟨i, hi⟩).lastPush, hR, hb1, hb2]

theorem c4_zero_signal_bounds_witness :
    marketRow₁.usageRaw = 0 ∧
    (0 ≤ ((computeMarketRankings (fun x => x) (fun _ => 0) (fun _ => none) (fun _ => 1/2)
        [marketRow₁]).get ⟨0, by decide⟩).totalScore ∧
      ((computeMarketRankings (fun x => x) (fun _ => 0) (fun _ => none) (fun _ => 1/2)
        [marketRow₁]).get ⟨0, by decide⟩).totalScore ≤ 3/5) :=
  ⟨rfl,
   c4_zero_signal_bounds (fun x => x) (fun _ => 0) (fun _ => none) (fun _ => 1/2)
     rfl rfl (fun _ => by norm_num) [marketRow₁] 0 (by decide) (by decide) rfl rfl⟩

/-! ## Claim C1: hybrid relevance fusion and ordering -/

/-- C1: for every tool of the search table appearing in the union of the
top-200 vector candidates and the top-200 keyword candidates, the query
computes `relevance = 0.7·s_score + 0.3·(log1p(k_raw)/log1p(k_max))` with a
missing vector or keyword side contributing `0` and the keyword term guarded
to `0` when `k_max` is `0` (or the keyword set empty); every returned row
carries `score = 0.8·relevance + 0.2·quality` with `quality` the server's
`market_rankings.total_score` defaulted to `0`; and the result list is
ordered by that score, descending. `log1p (max 0 ·)` is the store's clamped
scalar applied to `k` values. -/
theorem c1_hybrid_relevance_and_order (log1p : ℚ → ℚ)
    (searchRows : List SearchRow) (embRows ftsRows : List (ℕ × ℚ))
    (market : List (String × ℚ)) (limit : ℕ) (ts : SearchRow)
    (hts : ts ∈ searchRows)
    (hunion : (alookup ts.toolId (vectorHits embRows)).isSome ∨
      (alookup ts.toolId (ftsHits ftsRows)).isSome) :
    (hybridRow log1p (vectorHits embRows) (ftsHits ftsRows)
        (sqlMax ((ftsHits ftsRows).map (fun p => p.2))) market ts).relevance =
      7/10 * ((alookup ts.toolId (vectorHits embRows)).getD 0) +
      3/10 * (match alookup ts.toolId (ftsHits ftsRows),
              sqlMax ((ftsHits ftsRows).map (fun p => p.2)) with
        | some kraw, some kmax =>
            if kmax = 0 then 0 else log1p (max 0 kraw) / log1p (max 0 kmax)
        | _, _ => 0) ∧
    (∀ r ∈ hybridSearch log1p searchRows embRows ftsRows market limit,
      r.finalScore = 8/10 * r.relevance + 2/10 * r.quality ∧
      r.quality = (alookup r.serverName market).getD 0) ∧
    (hybridSearch log1p searchRows embRows ftsRows market limit).Pairwise
      (fun a b => b.finalScore ≤ a.finalScore) := by
  refine ⟨?_, ?_, ?_⟩
  · simp only [hybridRow, relevanceExpr]
    cases hk : alookup ts.toolId (ftsHits ftsRows) with
    | none =>
      cases hm : sqlMax ((ftsHits ftsRows).map (fun p => p.2)) with
      | none => simp [sqlLog1p, nullif0]
      | some m => simp [sqlLog1p, nullif0]
    | some k =>
      cases hm : sqlMax ((ftsHits ftsRows).map (fun p => p.2)) with
      | none => simp [sqlLog1p, nullif0]
      | some m =>
        by_cases h0 : m = 0
        · simp [sqlLog1p, nullif0, h0]
        · simp [sqlLog1p, nullif0, h0]
  · intro r hr
    simp only [hybridSearch] at hr
    have hr₂ : r ∈ sortDescBy (fun r => r.finalScore)
        (searchRows.filterMap (fun ts =>
          if (alookup ts.toolId (vectorHits embRows)).isSome ∨
              (alookup ts.toolId (ftsHits ftsRows)).isSome then
            if (hybridRow log1p (vectorHits embRows) (ftsHits ftsRows)
                (sqlMax ((ftsHits ftsRows).map (fun p => p.2))) market ts).relevance > 3/10 then
              some (hybridRow log1p (vectorHits embRows) (ftsHits ftsRows)
                (sqlMax ((ftsHits ftsRows).map (fun p => p.2))) market ts)
            else none
          else none)) := List.take_subset _ _ hr
    rw [mem_sortDescBy] at hr₂
    obtain ⟨a, _, hfa⟩ := List.mem_filterMap.mp hr₂
    by_cases h1 : (alookup a.toolId (vectorHits embRows)).isSome ∨
        (alookup a.toolId (ftsHits ftsRows)).isSome
    · rw [if_pos h1] at hfa
      by_cases h2 : (hybridRow log1p (vectorHits embRows) (ftsHits ftsRows)
          (sqlMax ((ftsHits ftsRows).map (fun p => p.2))) market a).relevance > 3/10
      · rw [if_pos h2, Option.some_inj] at hfa
        subst hfa
        exact ⟨rfl, rfl⟩
      · rw [if_neg h2] at hfa
        exact absurd hfa (Option.noConfusion)
    · rw [if_neg h1] at hfa
      exact absurd hfa (Option.noConfusion)
  · simp only [hybridSearch]
    exact (pairwise_sortDescBy _ _).sublist (List.take_sublist _ _)

theorem c1_hybrid_relevance_and_order_witness :
    searchRow₁ ∈ [searchRow₁] ∧
    (hybridSearch (fun x => x) [searchRow₁] [(1, 1/2)] [(1, 3)] [("s", 1)] 10).Pairwise
      (fun a b => b.finalScore ≤ a.finalScore) :=
  ⟨by decide,
   (c1_hybrid_relevance_and_order (fun x => x) [searchRow₁] [(1, 1/2)] [(1, 3)]
      [("s", 1)] 10 searchRow₁ (by decide) (Or.inl (by decide))).2.2⟩

/-! ## Claim C2: relevance floor and `total_candidates` -/

/-- C2 counterexample: with one tool whose only signal is a vector score of
`0.2` (relevance `0.14 ≤ 0.3`), the unfiltered union of the two candidate
sets has one element, but `retrieve` reports `total_candidates = 0`: the
floor is applied inside the SQL before `len(candidates)` is taken, so
`total_candidates` does not reflect the unfiltered 200-candidate union. -/
theorem c2_total_candidates_counterexample :
    ([searchRow₁].filter (fun ts =>
      (alookup ts.toolId (vectorHits [(1, 1/5)])).isSome ||
      (alookup ts.toolId (ftsHits [])).isSome)).length = 1 ∧
    (retrieve (fun x => x) [searchRow₁] [(1, 1/5)] [] [] [] "q" 1 10).totalCandidates = 0 ∧
    (0 : ℕ) ≠ 1 := by
  refine ⟨by decide, ?_, by decide⟩
  norm_num [retrieve, hybridSearch, vectorHits, ftsHits, sortDescBy, insertDesc,
    sqlMax, alookup, hybridRow, relevanceExpr, sqlLog1p, nullif0, searchRow₁]

/-- C2 amended: when every tool of the search table has relevance at or below
the 0.3 floor, `retrieve` returns an empty results list and
`total_candidates = 0`: the candidate count (and hence paging) is computed
from the floor-filtered, limit-100-capped candidate list, not from the
unfiltered union. -/
theorem c2_floor_empty_results (log1p : ℚ → ℚ) (searchRows : List SearchRow)
    (embRows ftsRows : List (ℕ × ℚ)) (market : List (String × ℚ))
    (vtools : List VToolsRow) (query : String) (page limit : ℕ)
    (hfloor : ∀ ts ∈ searchRows,
      (hybridRow log1p (vectorHits embRows) (ftsHits ftsRows)
        (sqlMax ((ftsHits ftsRows).map (fun p => p.2))) market ts).relevance ≤ 3/10) :
    (retrieve log1p searchRows embRows ftsRows market vtools query page limit).results = [] ∧
    (retrieve log1p searchRows embRows ftsRows market vtools query page limit).totalCandidates = 0 := by
  have hcand : hybridSearch log1p searchRows embRows ftsRows market 100 = [] := by
    simp only [hybridSearch]
    have hnil : searchRows.filterMap (fun ts =>
        if (alookup ts.toolId (vectorHits embRows)).isSome ∨
            (alookup ts.toolId (ftsHits ftsRows)).isSome then
          if (hybridRow log1p (vectorHits embRows) (ftsHits ftsRows)
              (sqlMax ((ftsHits ftsRows).map (fun p => p.2))) market ts).relevance > 3/10 then
            some (hybridRow log1p (vectorHits embRows) (ftsHits ftsRows)
              (sqlMax ((ftsHits ftsRows).map (fun p => p.2))) market ts)
          else none
        else none) = [] := by
      rw [List.filterMap_eq_nil_iff]
      intro ts hts
      by_cases h1 : (alookup ts.toolId (vectorHits embRows)).isSome ∨
          (alookup ts.toolId (ftsHits ftsRows)).isSome
      · rw [if_pos h1, if_neg (not_lt.mpr (hfloor ts hts))]
      · rw [if_neg h1]
    rw [hnil]
    rfl
  simp [retrieve, hcand]

theorem c2_floor_empty_results_witness :
    (retrieve (fun x => x) [searchRow₁] [(1, 1/5)] [] [] [] "q" 1 10).results = [] ∧
    (retrieve (fun x => x) [searchRow₁] [(1, 1/5)] [] [] [] "q" 1 10).totalCandidates = 0 :=
  c2_floor_empty_results (fun x => x) [searchRow₁] [(1, 1/5)] [] [] [] "q" 1 10 (by
    intro ts hts
    rw [List.mem_singleton] at hts
    subst hts
    norm_num [hybridRow, relevanceExpr, vectorHits, ftsHits, sortDescBy, insertDesc,
      sqlMax, sqlLog1p, nullif0, alookup, searchRow₁])

/-! ## Claim C9: idempotence of placeholder resolution

The development keeps the environment abstract and carries the hypothesis
`EnvClean`: every set value is nonempty and free of the placeholder-forming
characters `$`, `{`, `}`, `:`. -/

theorem splitAtBraceAux_some : ∀ {l r a : List Char},
    splitAtBraceAux l = some (r, a) → l = r ++ '}' :: a ∧ '}' ∉ r := by
  intro l
  induction l with
  | nil => intro r a h; simp [splitAtBraceAux] at h
  | cons c cs ih =>
    intro r a h
    rw [splitAtBraceAux] at h
    by_cases hc : c = '}'
    · rw [if_pos hc] at h
      simp only [Option.some_inj, Prod.mk.injEq] at h
      obtain ⟨h1, h2⟩ := h
      subst h1
      subst h2
      simp [hc]
    · rw [if_neg hc] at h
      cases hsp : splitAtBraceAux cs with
      | none => rw [hsp] at h; exact absurd h (by simp)
      | some p =>
        obtain ⟨r₂, a₂⟩ := p
        rw [hsp] at h
        simp only [Option.some_inj, Prod.mk.injEq] at h
        obtain ⟨h1, h2⟩ := h
        subst h1
        subst h2
        obtain ⟨hl, hr⟩ := ih hsp
        refine ⟨by rw [hl]; rfl, ?_⟩
        intro hmem
        rcases List.mem_cons.mp hmem with hceq | hmem₂
        · exact hc hceq.symm
        · exact hr hmem₂

theorem splitAtBraceAux_none {l : List Char} (h : '}' ∉ l) :
    splitAtBraceAux l = none := by
  induction l with
  | nil => rfl
  | cons c cs ih =>
    rw [splitAtBraceAux,
      if_neg (fun hc => h (by rw [← hc]; exact List.mem_cons_self c cs)),
      ih (fun hm => h (List.mem_cons_of_mem c hm))]

theorem splitAtBraceAux_some_of_mem {l : List Char} (hm : '}' ∈ l) :
    ∃ r a, splitAtBraceAux l = some (r, a) := by
  induction l with
  | nil => simp at hm
  | cons c cs ih =>
    by_cases hc : c = '}'
    · exact ⟨[], cs, by rw [splitAtBraceAux, if_pos hc]⟩
    · have hm₂ : '}' ∈ cs := by
        rcases List.mem_cons.mp hm with h | h
        · exact absurd h.symm hc
        · exact h
      obtain ⟨r, a, hsp⟩ := ih hm₂
      exact ⟨c :: r, a, by rw [splitAtBraceAux, if_neg hc, hsp]⟩

theorem splitAtBrace_some {l r a : List Char}
    (h : splitAtBrace l = some (r, a)) :
    l = r ++ '}' :: a ∧ r ≠ [] ∧ '}' ∉ r := by
  cases hsp : splitAtBraceAux l with
  | none =>
    simp only [splitAtBrace, hsp] at h
    exact Option.noConfusion h
  | some p =>
    obtain ⟨r₂, a₂⟩ := p
    simp only [splitAtBrace, hsp] at h
    by_cases hr : r₂ = []
    · rw [if_pos hr] at h; exact absurd h (by simp)
    · rw [if_neg hr] at h
      simp only [Option.some_inj, Prod.mk.injEq] at h
      obtain ⟨h1, h2⟩ := h
      subst h1
      subst h2
      exact ⟨(splitAtBraceAux_some hsp).1, hr, (splitAtBraceAux_some hsp).2⟩

theorem splitAtBrace_none_of_not_mem {l : List Char} (h : '}' ∉ l) :
    splitAtBrace l = none := by
  simp only [splitAtBrace, splitAtBraceAux_none h]

theorem splitAtBrace_none_cases {l : List Char} (h : splitAtBrace l = none) :
    '}' ∉ l ∨ ∃ a, l = '}' :: a := by
  by_cases hm : '}' ∈ l
  · right
    obtain ⟨r, a, hsp⟩ := splitAtBraceAux_some_of_mem hm
    by_cases hr : r = []
    · obtain ⟨hl, _⟩ := splitAtBraceAux_some hsp
      exact ⟨a, by rw [hl, hr]; rfl⟩
    · exfalso
      simp only [splitAtBrace, hsp, if_neg hr] at h
      exact Option.noConfusion h
  · exact Or.inl hm

theorem splitAtBrace_some_length {l r a : List Char}
    (h : splitAtBrace l = some (r, a)) : a.length + 2 ≤ l.length := by
  obtain ⟨hl, hr, _⟩ := splitAtBrace_some h
  have : 1 ≤ r.length := List.length_pos.mpr hr
  rw [hl]
  simp only [List.length_append, List.length_cons]
  omega

theorem substF_congr (env : String → Option String) :
    ∀ (f : ℕ) {g : ℕ} (l : List Char), l.length ≤ f → l.length ≤ g →
      substF env f l = substF env g l := by
  intro f
  induction f with
  | zero =>
    intro g l hf _
    have : l = [] := List.length_eq_zero.mp (Nat.le_zero.mp hf)
    subst this
    cases g <;> rfl
  | succ f ih =>
    intro g l hf hg
    cases l with
    | nil => cases g <;> rfl
    | cons c cs =>
      cases g with
      | zero => exact absurd hg (by simp)
      | succ g =>
        rw [substF, substF]
        by_cases h1 : c = '$' ∧ cs.head? = some '{'
        · rw [if_pos h1, if_pos h1]
          cases hsp : splitAtBrace cs.tail with
          | none =>
            have hlen : cs.length ≤ f := by simpa using hf
            have hlen₂ : cs.length ≤ g := by simpa using hg
            simp only [ih cs hlen hlen₂]
          | some p =>
            obtain ⟨raw, after⟩ := p
            have hafter : after.length ≤ f := by
              have := splitAtBrace_some_length hsp
              have htail := List.length_tail cs
              have hlen : cs.length ≤ f := by simpa using hf
              omega
            have hafter₂ : after.length ≤ g := by
              have := splitAtBrace_some_length hsp
              have htail := List.length_tail cs
              have hlen : cs.length ≤ g := by simpa using hg
              omega
            cases env (String.mk (stripInput raw)) with
            | none => simp only [ih after hafter hafter₂]
            | some v => simp only [ih after hafter hafter₂]
        · rw [if_neg h1, if_neg h1]
          have hlen : cs.length ≤ f := by simpa using hf
          have hlen₂ : cs.length ≤ g := by simpa using hg
          rw [ih cs hlen hlen₂]

theorem refsF_congr :
    ∀ (f : ℕ) {g : ℕ} (l : List Char), l.length ≤ f → l.length ≤ g →
      refsF f l = refsF g l := by
  intro f
  induction f with
  | zero =>
    intro g l hf _
    have : l = [] := List.length_eq_zero.mp (Nat.le_zero.mp hf)
    subst this
    cases g <;> rfl
  | succ f ih =>
    intro g l hf hg
    cases l with
    | nil => cases g <;> rfl
    | cons c cs =>
      cases g with
      | zero => exact absurd hg (by simp)
      | succ g =>
        rw [refsF, refsF]
        by_cases h1 : c = '$' ∧ cs.head? = some '{'
        · rw [if_pos h1, if_pos h1]
          cases hsp : splitAtBrace cs.tail with
          | none =>
            have hlen : cs.length ≤ f := by simpa using hf
            have hlen₂ : cs.length ≤ g := by simpa using hg
            simp only [ih cs hlen hlen₂]
          | some p =>
            obtain ⟨raw, after⟩ := p
            have hafter : after.length ≤ f := by
              have := splitAtBrace_some_length hsp
              have htail := List.length_tail cs
              have hlen : cs.length ≤ f := by simpa using hf
              omega
            have hafter₂ : after.length ≤ g := by
              have := splitAtBrace_some_length hsp
              have htail := List.length_tail cs
              have hlen : cs.length ≤ g := by simpa using hg
              omega
            simp only [ih after hafter hafter₂]
        · rw [if_neg h1, if_neg h1]
          have hlen : cs.length ≤ f := by simpa using hf
          have hlen₂ : cs.length ≤ g := by simpa using hg
          simp only [ih cs hlen hlen₂]

theorem substVars_plain (env : String → Option String) (c : Char) (cs : List Char)
    (h : ¬(c = '$' ∧ cs.head? = some '{')) :
    substVars env (c :: cs) = c :: substVars env cs := by
  show substF env (cs.length + 1) (c :: cs) = c :: substF env cs.length cs
  rw [substF, if_neg h]

theorem substVars_nosplit (env : String → Option String) (cs : List Char)
    (hh : cs.head? = some '{') (hsp : splitAtBrace cs.tail = none) :
    substVars env ('$' :: cs) = '$' :: substVars env cs := by
  show substF env (cs.length + 1) ('$' :: cs) = '$' :: substF env cs.length cs
  rw [substF, if_pos ⟨rfl, hh⟩]
  simp only [hsp]

theorem substVars_after_length {cs raw after : List Char}
    (hsp : splitAtBrace cs.tail = some (raw, after)) : after.length ≤ cs.length := by
  have := splitAtBrace_some_length hsp
  have := List.length_tail cs
  omega

theorem substVars_set (env : String → Option String) (cs raw after : List Char)
    (v : String) (hh : cs.head? = some '{')
    (hsp : splitAtBrace cs.tail = some (raw, after))
    (hv : env (String.mk (stripInput raw)) = some v) :
    substVars env ('$' :: cs) = v.data ++ substVars env after := by
  show substF env (cs.length + 1) ('$' :: cs) = v.data ++ substVars env after
  rw [substF, if_pos ⟨rfl, hh⟩]
  simp only [hsp, hv]
  rw [substF_congr env cs.length after (substVars_after_length hsp) le_rfl]
  rfl

theorem substVars_unset (env : String → Option String) (cs raw after : List Char)
    (hh : cs.head? = some '{')
    (hsp : splitAtBrace cs.tail = some (raw, after))
    (hv : env (String.mk (stripInput raw)) = none) :
    substVars env ('$' :: cs) = '$' :: '{' :: (raw ++ '}' :: substVars env after) := by
  show substF env (cs.length + 1) ('$' :: cs) = _
  rw [substF, if_pos ⟨rfl, hh⟩]
  simp only [hsp, hv]
  rw [substF_congr env cs.length after (substVars_after_length hsp) le_rfl]
  rfl

theorem refsIn_plain (c : Char) (cs : List Char)
    (h : ¬(c = '$' ∧ cs.head? = some '{')) :
    refsIn (c :: cs) = refsIn cs := by
  show refsF (cs.length + 1) (c :: cs) = refsF cs.length cs
  rw [refsF, if_neg h]

theorem refsIn_nosplit (cs : List Char) (hh : cs.head? = some '{')
    (hsp : splitAtBrace cs.tail = none) :
    refsIn ('$' :: cs) = refsIn cs := by
  show refsF (cs.length + 1) ('$' :: cs) = refsF cs.length cs
  rw [refsF, if_pos ⟨rfl, hh⟩]
  simp only [hsp]

theorem refsIn_split (cs raw after : List Char) (hh : cs.head? = some '{')
    (hsp : splitAtBrace cs.tail = some (raw, after)) :
    refsIn ('$' :: cs) = String.mk (stripInput raw) :: refsIn after := by
  show refsF (cs.length + 1) ('$' :: cs) = _
  rw [refsF, if_pos ⟨rfl, hh⟩]
  simp only [hsp]
  rw [refsF_congr cs.length after (substVars_after_length hsp) le_rfl]
  rfl

theorem substVars_append_of_no_dollar (env : String → Option String)
    (v X : List Char) (hv : ∀ c ∈ v, c ≠ '$') :
    substVars env (v ++ X) = v ++ substVars env X := by
  induction v with
  | nil => rfl
  | cons c cs ih =>
    have hc : c ≠ '$' := hv c (List.mem_cons_self c cs)
    rw [List.cons_append,
      substVars_plain env c (cs ++ X) (fun hp => hc hp.1),
      ih (fun d hd => hv d (List.mem_cons_of_mem c hd))]
    rfl

theorem substVars_of_no_dollar (env : String → Option String)
    (v : List Char) (hv : ∀ c ∈ v, c ≠ '$') : substVars env v = v := by
  have h := substVars_append_of_no_dollar env v [] hv
  rw [List.append_nil] at h
  rw [h]
  simp [substVars, substF]

theorem substVars_of_no_brace (env : String → Option String) :
    ∀ l : List Char, '}' ∉ l → substVars env l = l
  | [], _ => rfl
  | c :: cs, h => by
    have hcs : '}' ∉ cs := fun hm => h (List.mem_cons_of_mem c hm)
    by_cases h1 : c = '$' ∧ cs.head? = some '{'
    · obtain ⟨rfl, hh⟩ := h1
      have htail : '}' ∉ cs.tail := fun hm => hcs (List.mem_of_mem_tail hm)
      rw [substVars_nosplit env cs hh (splitAtBrace_none_of_not_mem htail),
        substVars_of_no_brace env cs hcs]
    · rw [substVars_plain env c cs h1, substVars_of_no_brace env cs hcs]

theorem substVars_head_ne_brace (env : String → Option String)
    (hclean : EnvClean env) (l : List Char) (h : l.head? ≠ some '{') :
    (substVars env l).head? ≠ some '{' := by
  cases l with
  | nil => intro hc; exact Option.noConfusion hc
  | cons c cs =>
    have hc : c ≠ '{' := fun hceq => h (by rw [hceq]; rfl)
    by_cases h1 : c = '$' ∧ cs.head? = some '{'
    · obtain ⟨rfl, hh⟩ := h1
      cases hsp : splitAtBrace cs.tail with
      | none =>
        rw [substVars_nosplit env cs hh hsp]
        intro hcontra
        exact absurd (Option.some_inj.mp hcontra) (by decide)
      | some p =>
        obtain ⟨raw, after⟩ := p
        cases hv : env (String.mk (stripInput raw)) with
        | some v =>
          rw [substVars_set env cs raw after v hh hsp hv]
          obtain ⟨hne, hchars⟩ := hclean _ v hv
          cases hd : v.data with
          | nil => exact absurd hd hne
          | cons d ds =>
            have hd' : d ≠ '{' :=
              (hchars d (by rw [hd]; exact List.mem_cons_self d ds)).2.1
            intro hcontra
            exact hd' (Option.some_inj.mp hcontra)
        | none =>
          rw [substVars_unset env cs raw after hh hsp hv]
          intro hcontra
          exact absurd (Option.some_inj.mp hcontra) (by decide)
    · rw [substVars_plain env c cs h1]
      intro hcontra
      exact hc (Option.some_inj.mp hcontra)

theorem substVars_no_colon (env : String → Option String)
    (hclean : EnvClean env) :
    ∀ (n : ℕ) (l : List Char), l.length ≤ n → ':' ∉ l →
      ':' ∉ substVars env l := by
  intro n
  induction n with
  | zero =>
    intro l hl _
    have hnil : l = [] := List.length_eq_zero.mp (Nat.le_zero.mp hl)
    subst hnil
    simp [substVars, substF]
  | succ n ih =>
    intro l hl hcol
    cases l with
    | nil => simp [substVars, substF]
    | cons c cs =>
      have hccol : c ≠ ':' := fun hceq => hcol (by rw [← hceq]; exact List.mem_cons_self c cs)
      have hcscol : ':' ∉ cs := fun hm => hcol (List.mem_cons_of_mem c hm)
      have hlen : cs.length ≤ n := by simpa using hl
      by_cases h1 : c = '$' ∧ cs.head? = some '{'
      · obtain ⟨rfl, hh⟩ := h1
        cases hsp : splitAtBrace cs.tail with
        | none =>
          rw [substVars_nosplit env cs hh hsp]
          intro hm
          rcases List.mem_cons.mp hm with hce | hm₂
          · exact absurd hce.symm hccol
          · exact ih cs hlen hcscol hm₂
        | some p =>
          obtain ⟨raw, after⟩ := p
          obtain ⟨htail, hrne, hrnb⟩ := splitAtBrace_some hsp
          have hsub : ∀ d, d ∈ raw ∨ d ∈ after → d ∈ cs := by
            intro d hd
            apply List.mem_of_mem_tail
            rw [htail]
            rcases hd with hd | hd
            · exact List.mem_append.mpr (Or.inl hd)
            · exact List.mem_append.mpr (Or.inr (List.mem_cons_of_mem _ hd))
          have hrawcol : ':' ∉ raw := fun hm => hcscol (hsub ':' (Or.inl hm))
          have haftercol : ':' ∉ after := fun hm => hcscol (hsub ':' (Or.inr hm))
          have hafterlen : after.length ≤ n := by
            have := substVars_after_length hsp
            omega
          cases hv : env (String.mk (stripInput raw)) with
          | some v =>
            rw [substVars_set env cs raw after v hh hsp hv]
            intro hm
            rcases List.mem_append.mp hm with hm₁ | hm₂
            · exact ((hclean _ v hv).2 ':' hm₁).2.2.2 rfl
            · exact ih after hafterlen haftercol hm₂
          | none =>
            rw [substVars_unset env cs raw after hh hsp hv]
            intro hm
            rcases List.mem_cons.mp hm with hce | hm₂
            · exact absurd hce (by decide)
            · rcases List.mem_cons.mp hm₂ with hce | hm₃
              · exact absurd hce (by decide)
              · rcases List.mem_append.mp hm₃ with hm₄ | hm₅
                · exact hrawcol hm₄
                · rcases List.mem_cons.mp hm₅ with hce | hm₆
                  · exact absurd hce (by decide)
                  · exact ih after hafterlen haftercol hm₆
      · rw [substVars_plain env c cs h1]
        intro hm
        rcases List.mem_cons.mp hm with hce | hm₂
        · exact absurd hce.symm hccol
        · exact ih cs hlen hcscol hm₂

theorem splitAtBrace_cons_brace (X : List Char) :
    splitAtBrace ('}' :: X) = none := by
  simp [splitAtBrace, splitAtBraceAux]

theorem substVars_idem (env : String → Option String) (hclean : EnvClean env) :
    ∀ (n : ℕ) (l : List Char), l.length ≤ n →
      (∀ name ∈ refsIn l, (env name).isSome) →
      substVars env (substVars env l) = substVars env l := by
  intro n
  induction n with
  | zero =>
    intro l hl _
    have hnil : l = [] := List.length_eq_zero.mp (Nat.le_zero.mp hl)
    subst hnil
    rfl
  | succ n ih =>
    intro l hl hset
    cases l with
    | nil => rfl
    | cons c cs =>
      have hlen : cs.length ≤ n := by simpa using hl
      by_cases h1 : c = '$' ∧ cs.head? = some '{'
      · obtain ⟨rfl, hh⟩ := h1
        cases cs with
        | nil => exact absurd hh (by intro hc; exact Option.noConfusion hc)
        | cons d ds =>
          have hd : d = '{' := Option.some_inj.mp hh
          subst hd
          cases hsp : splitAtBrace ds with
          | none =>
            have hplain : ¬('{' = '$' ∧ ds.head? = some '{') := fun hcontra => by
              exact absurd hcontra.1 (by decide)
            rw [substVars_nosplit env ('{' :: ds) hh hsp,
              substVars_plain env '{' ds hplain]
            rcases splitAtBrace_none_cases hsp with hnb | ⟨a, rfl⟩
            · rw [substVars_of_no_brace env ds hnb,
                substVars_nosplit env ('{' :: ds) hh hsp,
                substVars_plain env '{' ds hplain,
                substVars_of_no_brace env ds hnb]
            · have hplain₂ : ¬('}' = '$' ∧ a.head? = some '{') := fun hcontra => by
                exact absurd hcontra.1 (by decide)
              rw [substVars_plain env '}' a hplain₂]
              rw [substVars_nosplit env ('{' :: '}' :: substVars env a) rfl
                (splitAtBrace_cons_brace (substVars env a))]
              rw [substVars_plain env '{' ('}' :: substVars env a)
                (fun hcontra => absurd hcontra.1 (by decide))]
              rw [substVars_plain env '}' (substVars env a)
                (fun hcontra => absurd hcontra.1 (by decide))]
              have halen : a.length ≤ n := by
                simp only [List.length_cons] at hlen
                omega
              have hseta : ∀ name ∈ refsIn a, (env name).isSome := by
                intro name hm
                apply hset
                rw [refsIn_nosplit ('{' :: '}' :: a) hh hsp,
                  refsIn_plain '{' ('}' :: a)
                    (fun hcontra => absurd hcontra.1 (by decide)),
                  refsIn_plain '}' a
                    (fun hcontra => absurd hcontra.1 (by decide))]
                exact hm
              rw [ih a halen hseta]
          | some p =>
            obtain ⟨raw, after⟩ := p
            have hrefs : refsIn ('$' :: '{' :: ds) =
                String.mk (stripInput raw) :: refsIn after :=
              refsIn_split ('{' :: ds) raw after hh hsp
            have hname : (env (String.mk (stripInput raw))).isSome := by
              apply hset
              rw [hrefs]
              exact List.mem_cons_self _ _
            obtain ⟨v, hv⟩ := Option.isSome_iff_exists.mp hname
            rw [substVars_set env ('{' :: ds) raw after v hh hsp hv]
            obtain ⟨hvne, hvchars⟩ := hclean _ v hv
            rw [substVars_append_of_no_dollar env v.data (substVars env after)
              (fun e he => (hvchars e he).1)]
            have hafterlen : after.length ≤ n := by
              have := @substVars_after_length ('{' :: ds) raw after hsp
              simp only [List.length_cons] at hlen this
              omega
            have hsetafter : ∀ name ∈ refsIn after, (env name).isSome := by
              intro name hm
              apply hset
              rw [hrefs]
              exact List.mem_cons_of_mem _ hm
            rw [ih after hafterlen hsetafter]
      · rw [substVars_plain env c cs h1]
        have hsetcs : ∀ name ∈ refsIn cs, (env name).isSome := by
          intro name hm
          apply hset
          rw [refsIn_plain c cs h1]
          exact hm
        by_cases hc : c = '$'
        · subst hc
          have hh : cs.head? ≠ some '{' := fun hh => h1 ⟨rfl, hh⟩
          have hh₂ : (substVars env cs).head? ≠ some '{' :=
            substVars_head_ne_brace env hclean cs hh
          rw [substVars_plain env '$' (substVars env cs) (fun hcontra => hh₂ hcontra.2),
            ih cs hlen hsetcs]
        · rw [substVars_plain env c (substVars env cs) (fun hcontra => hc hcontra.1),
            ih cs hlen hsetcs]

theorem alookup_mem {κ α : Type} [DecidableEq κ] {k : κ} {l : List (κ × α)}
    {a : α} (h : alookup k l = some a) : ∃ p ∈ l, p.2 = a := by
  induction l with
  | nil => exact absurd h (by simp [alookup])
  | cons q rest ih =>
    obtain ⟨k₂, b⟩ := q
    rw [alookup] at h
    by_cases hk : k₂ = k
    · rw [if_pos hk, Option.some_inj] at h
      exact ⟨(k₂, b), List.mem_cons_self _ _, h⟩
    · rw [if_neg hk] at h
      obtain ⟨p, hp, hpa⟩ := ih h
      exact ⟨p, List.mem_cons_of_mem _ hp, hpa⟩

theorem resolveString_idem (env : String → Option String) (hclean : EnvClean env)
    (s : String) (hset : ∀ n ∈ refsString s, (env n).isSome)
    (hshape : "ENV:".data.isPrefixOf s.data = true ∨ ':' ∉ s.data) :
    resolveString env (resolveString env s) = resolveString env s := by
  by_cases hpre : "ENV:".data.isPrefixOf s.data = true
  · have hname : (env (String.mk (s.data.drop 4))).isSome := by
      apply hset
      rw [refsString, if_pos hpre]
      exact List.mem_cons_self _ _
    obtain ⟨v, hv⟩ := Option.isSome_iff_exists.mp hname
    have hR : resolveString env s = v := by
      rw [resolveString, if_pos hpre, hv]
      rfl
    rw [hR]
    obtain ⟨hvne, hvchars⟩ := hclean _ v hv
    have hvpre : ¬("ENV:".data.isPrefixOf v.data = true) := by
      intro hp
      have hmem : ':' ∈ v.data :=
        ((List.isPrefixOf_iff_prefix.mp hp).sublist).subset (by decide)
      exact (hvchars _ hmem).2.2.2 rfl
    rw [resolveString, if_neg hvpre,
      substVars_of_no_dollar env v.data (fun c hc => (hvchars c hc).1)]
  · have hcol : ':' ∉ s.data := hshape.resolve_left hpre
    have hR : resolveString env s = String.mk (substVars env s.data) := by
      rw [resolveString, if_neg hpre]
    rw [hR]
    have hRcol : ':' ∉ substVars env s.data :=
      substVars_no_colon env hclean s.data.length s.data le_rfl hcol
    have hRpre : ¬("ENV:".data.isPrefixOf
        ((String.mk (substVars env s.data)).data) = true) := by
      intro hp
      exact hRcol (((List.isPrefixOf_iff_prefix.mp hp).sublist).subset (by decide))
    rw [resolveString, if_neg hRpre]
    have hsetIn : ∀ name ∈ refsIn s.data, (env name).isSome := by
      intro name hm
      apply hset
      rw [refsString, if_neg hpre]
      exact hm
    exact congrArg String.mk
      (substVars_idem env hclean s.data.length s.data le_rfl hsetIn)

/-- C9 counterexample: with `FOO = "ENV:BAR"` and `BAR = "x"` in the
environment, the string `"ENV:FOO"` references only the set variable `FOO`,
yet resolving twice gives `"x"` while resolving once gives `"ENV:BAR"` — the
substituted value itself contains a placeholder, so one resolution is not a
fixed point even though every variable referenced by the input is set. -/
theorem c9_resolution_not_idempotent_counterexample :
    (∀ n ∈ refsString "ENV:FOO",
      (envOf [("FOO", "ENV:BAR"), ("BAR", "x")] n).isSome) ∧
    resolveString (envOf [("FOO", "ENV:BAR"), ("BAR", "x")])
        (resolveString (envOf [("FOO", "ENV:BAR"), ("BAR", "x")]) "ENV:FOO") ≠
      resolveString (envOf [("FOO", "ENV:BAR"), ("BAR", "x")]) "ENV:FOO" :=
  ⟨by decide, by decide⟩

/-- C9 amended: resolving a string twice yields the same string as resolving
it once, provided every env var referenced by a placeholder in the string is
set, every set env value is nonempty and free of the placeholder-forming
characters `$`, `{`, `}`, `:` (so substitution can neither leave nor create a
placeholder), and the string either is an `ENV:` string or contains no `:`
(so the result cannot become one); non-string JSON leaves pass through
`resolve_env_vars` unchanged. -/
theorem c9_resolution_idempotent_amended (bindings : List (String × String))
    (s : String)
    (hclean : ∀ p ∈ bindings, p.2.data ≠ [] ∧
      ∀ c ∈ p.2.data, c ≠ '$' ∧ c ≠ '{' ∧ c ≠ '}' ∧ c ≠ ':')
    (hset : ∀ n ∈ refsString s, (envOf bindings n).isSome)
    (hshape : "ENV:".data.isPrefixOf s.data = true ∨ ':' ∉ s.data) :
    resolveString (envOf bindings) (resolveString (envOf bindings) s) =
      resolveString (envOf bindings) s ∧
    (∀ (env₂ : String → Option String) (q : ℚ) (b : Bool),
      resolveEnvVars env₂ (JValue.num q) = JValue.num q ∧
      resolveEnvVars env₂ (JValue.bool b) = JValue.bool b ∧
      resolveEnvVars env₂ JValue.null = JValue.null) := by
  constructor
  · apply resolveString_idem (envOf bindings) ?_ s hset hshape
    intro n v hv
    obtain ⟨p, hp, hpv⟩ := alookup_mem hv
    rw [← hpv]
    exact hclean p hp
  · intro env₂ q b
    exact ⟨rfl, rfl, rfl⟩

theorem c9_resolution_idempotent_amended_witness :
    resolveString (envOf [("TOK", "abc")]) "Bearer $\x7bTOK\x7d" = "Bearer abc" ∧
    resolveString (envOf [("TOK", "abc")])
        (resolveString (envOf [("TOK", "abc")]) "Bearer $\x7bTOK\x7d") =
      resolveString (envOf [("TOK", "abc")]) "Bearer $\x7bTOK\x7d" :=
  ⟨by decide,
   (c9_resolution_idempotent_amended [("TOK", "abc")] "Bearer $\x7bTOK\x7d"
      (by decide) (by decide) (Or.inr (by decide))).1⟩

end Wisp
